import Mathlib

/-!
Shallow embedding of the density estimator in
`chromadb/experimental/density.py` (class `IndexDensityDistribution`).

Distances are modelled as rationals.  The numpy operations the source
uses (`np.mean`, `np.histogram` with `density=True`, `np.cumsum`,
`np.digitize`, fancy indexing with negative indices) are embedded
faithfully below, including their failure modes: `np.mean` over an empty
axis produces NaN (modelled as `none`), `np.histogram` rejects a
non-positive bin count and a NaN data range, and indexing an array of
length `n` with an index outside `[-n, n)` is an IndexError (`none`).
The external nearest-neighbor collaborator is not part of the source
file; construction (`fit`) therefore takes the collaborator's response
as a function argument, and the collaborator contract itself is
modelled from the spec (`NNResponseOk`).
-/

/-- Arithmetic mean of a row, as `np.mean` over one axis computes it:
`none` models the NaN produced for an empty row. -/
def meanOpt (xs : List ℚ) : Option ℚ :=
  if xs.isEmpty then none else some (xs.sum / (xs.length : ℚ))

/-- Running cumulative sums starting from `acc` (helper for `cumsum`). -/
def cumsumFrom (acc : ℚ) : List ℚ → List ℚ
  | [] => []
  | x :: xs => (acc + x) :: cumsumFrom (acc + x) xs

/-- Embeds `np.cumsum` on a one-dimensional array. -/
def cumsum (xs : List ℚ) : List ℚ := cumsumFrom 0 xs

/-- Embeds `np.digitize(v, edges)` (default `right=False`) for
monotonically increasing `edges`: the number of edges `≤ v`, i.e. the
insertion point of `v` with side `right`. -/
def digitize (v : ℚ) (edges : List ℚ) : Nat :=
  (edges.filter (fun e => decide (e ≤ v))).length

/-- `np.digitize` applied to a possibly-NaN value: NaN sorts after every
edge, so it digitizes to the number of edges. -/
def digitizeOpt (x : Option ℚ) (edges : List ℚ) : Nat :=
  match x with
  | none => edges.length
  | some v => digitize v edges

/-- Embeds numpy integer array indexing `xs[i]`: an index in
`[-len, 0)` counts from the end, anything outside `[-len, len)` is an
IndexError, modelled as `none`. -/
def npGet (xs : List ℚ) (i : Int) : Option ℚ :=
  let j : Int := if i < 0 then (xs.length : Int) + i else i
  if j < 0 then none else xs[j.toNat]?

/-- Whether `np.array` applied to a list of rows yields a 2-D array:
all rows must have the first row's length (a ragged input raises). -/
def rectangular : List (List ℚ) → Bool
  | [] => true
  | r :: rs => rs.all (fun s => s.length == r.length)

/-- The `i`-th of the `n+1` equally spaced bin edges over `[lo, hi]`,
as `np.histogram` computes them. -/
def edgeAt (lo hi : ℚ) (n i : Nat) : ℚ := lo + (i : ℚ) * ((hi - lo) / (n : ℚ))

/-- The data range `np.histogram` uses: `(min, max)` of the data,
widened by one half on each side when all values coincide, and the
numpy default `(0, 1)` for empty data. -/
def histRange (xs : List ℚ) : ℚ × ℚ :=
  match xs with
  | [] => (0, 1)
  | x :: r =>
    let lo := r.foldl min x
    let hi := r.foldl max x
    if lo = hi then (lo - 1/2, hi + 1/2) else (lo, hi)

/-- Number of data points in bin `i` of `n`: interior bins are
right-open, the last bin is closed, as in `np.histogram`. -/
def binCount (data : List ℚ) (lo hi : ℚ) (n i : Nat) : Nat :=
  if i + 2 ≤ n then
    (data.filter (fun x =>
      decide (edgeAt lo hi n i ≤ x) && decide (x < edgeAt lo hi n (i + 1)))).length
  else
    (data.filter (fun x =>
      decide (edgeAt lo hi n i ≤ x) && decide (x ≤ edgeAt lo hi n (i + 1)))).length

/-- Embeds `np.histogram(data, bins=n, density=True)` on data with a
finite range: the density values (every data point lies in the edge
range, so the total count numpy divides by equals `data.length`) and
the `n+1` bin edges. -/
def histogram_density (data : List ℚ) (n : Nat) : List ℚ × List ℚ :=
  let lo := (histRange data).1
  let hi := (histRange data).2
  let width := (hi - lo) / (n : ℚ)
  ((List.range n).map (fun i => (binCount data lo hi n i : ℚ) / ((data.length : ℚ) * width)),
   (List.range (n + 1)).map (edgeAt lo hi n))

/-- Ways `IndexDensityDistribution.__init__` can raise: the explicit
`ValueError` for a too-small collection, numpy's `ValueError` for a
non-positive integer `bins`, and numpy's `ValueError` for a non-finite
(NaN) autodetected range. -/
inductive FitError where
  | collectionTooSmall
  | binsNonPositive
  | nonFiniteRange
  deriving DecidableEq

/-- The fitted state stored by `__init__`: `self._percentiles`,
`self._bin_edges`, `self._estimator_neighborhood`. -/
structure Fitted where
  percentiles : List ℚ
  bin_edges : List ℚ
  estimator_neighborhood : Nat
  deriving DecidableEq

/-- Collapses a list of possibly-NaN values: `none` as soon as one
entry is NaN (a NaN poisons the autodetected histogram range). -/
def allSome : List (Option ℚ) → Option (List ℚ)
  | [] => some []
  | none :: _ => none
  | some x :: rest =>
    match allSome rest with
    | none => none
    | some xs => some (x :: xs)

/-- Embeds the full `np.histogram(data, bins=n, density=True)` call on
possibly-NaN data, with numpy's validation order: the bin count is
checked first, then the range. -/
def histogram (data : List (Option ℚ)) (n : Nat) : Except FitError (List ℚ × List ℚ) :=
  if n = 0 then .error .binsNonPositive
  else
    match allSome data with
    | none => .error .nonFiniteRange
    | some xs => .ok (histogram_density xs n)

/-- Embeds `IndexDensityDistribution.__init__`.  The external
nearest-neighbor collaborator is passed as the function
`get_nearest_neighbors` from the requested `k` to the distance matrix
it returns; the source calls it with `k = estimator_neighborhood`,
drops column 0 of the result, takes row means, builds the density
histogram and stores its cumulative sums, the bin edges and the
neighborhood size. -/
def fit (collection_count : Nat) (get_nearest_neighbors : Nat → List (List ℚ))
    (estimator_neighborhood : Nat) (n_bins : Nat) : Except FitError Fitted :=
  if collection_count ≤ estimator_neighborhood then
    .error .collectionTooSmall
  else
    let dists := (get_nearest_neighbors estimator_neighborhood).map (List.drop 1)
    let mean_dists := dists.map meanOpt
    match histogram mean_dists n_bins with
    | .error e => .error e
    | .ok (hist, bin_edges) =>
      .ok { percentiles := cumsum hist, bin_edges := bin_edges,
            estimator_neighborhood := estimator_neighborhood }

/-- Ways `evaluate_query` can raise: `np_dists.shape[1]` on a 1-D empty
array (empty batch) is an IndexError, `np.array` on a ragged batch
raises, and an out-of-range bin index makes the percentile lookup an
IndexError. -/
inductive EvalError where
  | emptyBatchShape
  | raggedInput
  | indexError
  deriving DecidableEq

/-- The score `evaluate_query` computes for one query row: digitize the
row's mean distance into the fitted bin edges, subtract one, and look
the index up in the cumulative array with numpy index semantics. -/
def rowScore (f : Fitted) (row : List ℚ) : Option ℚ :=
  npGet f.percentiles ((digitizeOpt (meanOpt row) f.bin_edges : Int) - 1)

/-- Scores of all rows; `none` (IndexError on the fancy-indexed lookup)
as soon as any row's bin index is out of range. -/
def scoreRows (f : Fitted) : List (List ℚ) → Option (List ℚ)
  | [] => some []
  | r :: rs =>
    match rowScore f r, scoreRows f rs with
    | some v, some vs => some (v :: vs)
    | _, _ => none

/-- Embeds `IndexDensityDistribution.evaluate_query`.  Returns the
warnings logged (each records the pair the message interpolates: the
row width `np_dists.shape[1]` and `self._estimator_neighborhood`)
together with either the returned score list or the error raised. -/
def evaluate_query (f : Fitted) (query_dists : List (List ℚ)) :
    List (Nat × Nat) × Except EvalError (List ℚ) :=
  if rectangular query_dists then
    match query_dists with
    | [] => ([], .error .emptyBatchShape)
    | r0 :: _ =>
      let warnings := if r0.length < f.estimator_neighborhood
        then [(r0.length, f.estimator_neighborhood)] else []
      match scoreRows f query_dists with
      | none => (warnings, .error .indexError)
      | some ps => (warnings, .ok ps)
  else ([], .error .raggedInput)

/-- Modelled from the spec: the nearest-neighbor collaborator contract
of section 6 (the collaborator itself is outside this source file), for
the batch query `fit` makes, where every query vector is a member of
the store: for parameter `k` it returns one row per reference vector,
each row an ascending sequence of exactly `k` distances whose first
entry is the self-distance `0`.  (Section 4.1 instead asserts the
response has `k + 1` columns; that reading contradicts this contract,
which is the one the spec designates as the external interface.) -/
def NNResponseOk (N k : Nat) (dists : List (List ℚ)) : Prop :=
  dists.length = N ∧ ∀ row ∈ dists,
    row.length = k ∧ row.Sorted (· ≤ ·) ∧ row.head? = some 0

/-- A concrete collaborator response used in counterexamples and
witnesses: three reference vectors, two distances per row. -/
def resp0 : Nat → List (List ℚ) := fun _ => [[0, 1], [0, 2], [0, 4]]

instance {ε α : Type} [DecidableEq ε] [DecidableEq α] : DecidableEq (Except ε α) := fun x y =>
  match x, y with
  | .ok a, .ok b =>
    if h : a = b then .isTrue (congrArg Except.ok h)
    else .isFalse (fun hc => h (Except.ok.inj hc))
  | .error a, .error b =>
    if h : a = b then .isTrue (congrArg Except.error h)
    else .isFalse (fun hc => h (Except.error.inj hc))
  | .ok _, .error _ => .isFalse (fun hc => Except.noConfusion hc)
  | .error _, .ok _ => .isFalse (fun hc => Except.noConfusion hc)

instance (N k : Nat) (dists : List (List ℚ)) : Decidable (NNResponseOk N k dists) := by
  unfold NNResponseOk
  exact inferInstance

attribute [local semireducible] Rat.add Rat.mul Rat.inv Rat.sub

theorem cumsumFrom_length (acc : ℚ) (xs : List ℚ) :
    (cumsumFrom acc xs).length = xs.length := by
  induction xs generalizing acc with
  | nil => rfl
  | cons x xs ih => simp [cumsumFrom, ih]

theorem cumsum_length (xs : List ℚ) : (cumsum xs).length = xs.length :=
  cumsumFrom_length 0 xs

theorem cumsumFrom_le (acc : ℚ) (xs : List ℚ) (h : ∀ x ∈ xs, 0 ≤ x) :
    ∀ y ∈ cumsumFrom acc xs, acc ≤ y := by
  induction xs generalizing acc with
  | nil => intro y hy; simp [cumsumFrom] at hy
  | cons x xs ih =>
    intro y hy
    have hx : (0 : ℚ) ≤ x := h x (List.mem_cons_self x xs)
    rcases List.mem_cons.1 hy with rfl | hy
    · linarith
    · have := ih (acc + x) (fun z hz => h z (List.mem_cons_of_mem x hz)) y hy
      linarith

theorem cumsumFrom_sorted (acc : ℚ) (xs : List ℚ) (h : ∀ x ∈ xs, 0 ≤ x) :
    (cumsumFrom acc xs).Sorted (· ≤ ·) := by
  induction xs generalizing acc with
  | nil => exact List.sorted_nil
  | cons x xs ih =>
    refine List.sorted_cons.2 ⟨?_, ih (acc + x) (fun z hz => h z (List.mem_cons_of_mem x hz))⟩
    exact cumsumFrom_le (acc + x) xs (fun z hz => h z (List.mem_cons_of_mem x hz))

theorem cumsum_sorted (xs : List ℚ) (h : ∀ x ∈ xs, 0 ≤ x) :
    (cumsum xs).Sorted (· ≤ ·) :=
  cumsumFrom_sorted 0 xs h

theorem foldl_min_le (x : ℚ) (r : List ℚ) : r.foldl min x ≤ x := by
  induction r generalizing x with
  | nil => exact le_refl x
  | cons a r ih => exact le_trans (ih (min x a)) (min_le_left x a)

theorem le_foldl_max (x : ℚ) (r : List ℚ) : x ≤ r.foldl max x := by
  induction r generalizing x with
  | nil => exact le_refl x
  | cons a r ih => exact le_trans (le_max_left x a) (ih (max x a))

theorem histRange_lt (xs : List ℚ) : (histRange xs).1 < (histRange xs).2 := by
  cases xs with
  | nil => norm_num [histRange]
  | cons x r =>
    by_cases h : r.foldl min x = r.foldl max x
    · have hr : histRange (x :: r) = (r.foldl max x - 1 / 2, r.foldl max x + 1 / 2) := by
        simp [histRange, h]
      rw [hr]
      simp only []
      linarith
    · simp only [histRange, if_neg h]
      exact lt_of_le_of_ne (le_trans (foldl_min_le x r) (le_foldl_max x r)) h

theorem histogram_density_fst_length (data : List ℚ) (n : Nat) :
    (histogram_density data n).1.length = n := by
  simp [histogram_density]

theorem histogram_density_snd (data : List ℚ) (n : Nat) :
    (histogram_density data n).2 =
      (List.range (n + 1)).map (edgeAt (histRange data).1 (histRange data).2 n) := rfl

theorem histogram_density_snd_length (data : List ℚ) (n : Nat) :
    (histogram_density data n).2.length = n + 1 := by
  simp [histogram_density]

theorem histogram_density_nonneg (data : List ℚ) (n : Nat) :
    ∀ v ∈ (histogram_density data n).1, 0 ≤ v := by
  intro v hv
  simp only [histogram_density, List.mem_map, List.mem_range] at hv
  obtain ⟨i, _, rfl⟩ := hv
  have hlt := histRange_lt data
  apply div_nonneg (Nat.cast_nonneg _)
  apply mul_nonneg (Nat.cast_nonneg _)
  apply div_nonneg (by linarith) (Nat.cast_nonneg _)

theorem allSome_length {l : List (Option ℚ)} {xs : List ℚ} (h : allSome l = some xs) :
    xs.length = l.length := by
  induction l generalizing xs with
  | nil => simp [allSome] at h; simp [← h]
  | cons o rest ih =>
    cases o with
    | none => simp [allSome] at h
    | some x =>
      simp only [allSome] at h
      cases hr : allSome rest with
      | none => rw [hr] at h; exact absurd h (by simp)
      | some ys =>
        rw [hr] at h
        simp only [Option.some.injEq] at h
        subst h
        simp [ih hr]

theorem allSome_of_forall {l : List (Option ℚ)} (h : ∀ o ∈ l, o.isSome) :
    ∃ xs, allSome l = some xs := by
  induction l with
  | nil => exact ⟨[], rfl⟩
  | cons o rest ih =>
    obtain ⟨ys, hys⟩ := ih (fun z hz => h z (List.mem_cons_of_mem o hz))
    have ho := h o (List.mem_cons_self o rest)
    cases o with
    | none => simp at ho
    | some x => exact ⟨x :: ys, by simp [allSome, hys]⟩

theorem histogram_ne_collectionTooSmall (data : List (Option ℚ)) (n : Nat) :
    histogram data n ≠ .error .collectionTooSmall := by
  unfold histogram
  split
  · simp
  · split
    · simp
    · simp

theorem fit_ok_inv {count k n : Nat} {resp : Nat → List (List ℚ)} {f : Fitted}
    (h : fit count resp k n = .ok f) :
    k < count ∧ 1 ≤ n ∧ f.estimator_neighborhood = k ∧
    ∃ data : List ℚ,
      allSome (((resp k).map (List.drop 1)).map meanOpt) = some data ∧
      f.percentiles = cumsum (histogram_density data n).1 ∧
      f.bin_edges = (histogram_density data n).2 := by
  unfold fit at h
  by_cases hc : count ≤ k
  · rw [if_pos hc] at h
    exact absurd h (by simp)
  · rw [if_neg hc] at h
    simp only [] at h
    cases hh : histogram (((resp k).map (List.drop 1)).map meanOpt) n with
    | error e =>
      rw [hh] at h
      exact absurd h (by simp)
    | ok pr =>
      rw [hh] at h
      obtain ⟨hist, edges⟩ := pr
      simp only [Except.ok.injEq] at h
      subst h
      unfold histogram at hh
      by_cases hn : n = 0
      · rw [if_pos hn] at hh
        exact absurd hh (by simp)
      · rw [if_neg hn] at hh
        cases ha : allSome (((resp k).map (List.drop 1)).map meanOpt) with
        | none =>
          rw [ha] at hh
          exact absurd hh (by simp)
        | some data =>
          rw [ha] at hh
          simp only [Except.ok.injEq] at hh
          refine ⟨Nat.lt_of_not_le hc, Nat.one_le_iff_ne_zero.mpr hn, rfl, data, rfl, ?_, ?_⟩
          · rw [hh]
          · rw [hh]

theorem fit_ok_sorted {count k n : Nat} {resp : Nat → List (List ℚ)} {f : Fitted}
    (h : fit count resp k n = .ok f) : f.percentiles.Sorted (· ≤ ·) := by
  obtain ⟨-, -, -, data, -, hp, -⟩ := fit_ok_inv h
  rw [hp]
  exact cumsum_sorted _ (histogram_density_nonneg data n)

theorem fit_ok_percentiles_length {count k n : Nat} {resp : Nat → List (List ℚ)} {f : Fitted}
    (h : fit count resp k n = .ok f) : f.percentiles.length = n := by
  obtain ⟨-, -, -, data, -, hp, -⟩ := fit_ok_inv h
  rw [hp, cumsum_length, histogram_density_fst_length]

theorem fit_ok_edges {count k n : Nat} {resp : Nat → List (List ℚ)} {f : Fitted}
    (h : fit count resp k n = .ok f) :
    ∃ lo hi : ℚ, lo < hi ∧ f.bin_edges = (List.range (n + 1)).map (edgeAt lo hi n) := by
  obtain ⟨-, -, -, data, -, -, hb⟩ := fit_ok_inv h
  exact ⟨(histRange data).1, (histRange data).2, histRange_lt data,
    by rw [hb, histogram_density_snd]⟩

theorem edgeAt_le_edgeAt {lo hi : ℚ} (hlt : lo < hi) {n i j : Nat} (hij : i ≤ j) :
    edgeAt lo hi n i ≤ edgeAt lo hi n j := by
  unfold edgeAt
  have hw : (0 : ℚ) ≤ (hi - lo) / (n : ℚ) := div_nonneg (by linarith) (Nat.cast_nonneg n)
  have hcast : (i : ℚ) ≤ (j : ℚ) := Nat.cast_le.mpr hij
  exact add_le_add_left (mul_le_mul_of_nonneg_right hcast hw) lo

theorem edgeAt_zero (lo hi : ℚ) (n : Nat) : edgeAt lo hi n 0 = lo := by
  simp [edgeAt]

theorem edges_getLast (lo hi : ℚ) (n : Nat) :
    ((List.range (n + 1)).map (edgeAt lo hi n)).getLast? = some (edgeAt lo hi n n) := by
  rw [List.getLast?_map, List.getLast?_eq_getElem?]
  simp [List.getElem?_range]

theorem edges_head (lo hi : ℚ) (n : Nat) :
    ((List.range (n + 1)).map (edgeAt lo hi n)).head? = some lo := by
  rw [List.range_succ_eq_map]
  simp [edgeAt_zero]

theorem digitize_eq_length_of_le {v : ℚ} {edges : List ℚ}
    (h : ∀ e ∈ edges, e ≤ v) : digitize v edges = edges.length := by
  unfold digitize
  rw [List.filter_eq_self.mpr (fun e he => decide_eq_true (h e he))]

theorem digitize_eq_zero_of_lt {v : ℚ} {edges : List ℚ}
    (h : ∀ e ∈ edges, v < e) : digitize v edges = 0 := by
  unfold digitize
  rw [List.filter_eq_nil_iff.mpr (fun e he => by simp [not_le.mpr (h e he)])]
  rfl

theorem digitize_lt_length {v e : ℚ} {edges : List ℚ} (he : e ∈ edges) (h : v < e) :
    digitize v edges < edges.length := by
  unfold digitize
  refine lt_of_le_of_ne (List.length_filter_le _ _) ?_
  intro hlen
  rw [← List.countP_eq_length_filter] at hlen
  have hd := List.countP_eq_length.mp hlen e he
  simp only [decide_eq_true_eq] at hd
  exact absurd hd (not_le.mpr h)

theorem npGet_neg_one {xs : List ℚ} (h : 1 ≤ xs.length) :
    npGet xs (-1) = xs.getLast? := by
  simp only [npGet]
  have h1 : ((-1 : Int) < 0) := by norm_num
  rw [if_pos h1]
  have h2 : ¬ ((xs.length : Int) + (-1) < 0) := by omega
  rw [if_neg h2]
  have h3 : ((xs.length : Int) + (-1)).toNat = xs.length - 1 := by omega
  rw [h3, List.getLast?_eq_getElem?]

theorem npGet_length_eq_none (xs : List ℚ) : npGet xs (xs.length : Int) = none := by
  simp only [npGet]
  have h1 : ¬ ((xs.length : Int) < 0) := by omega
  rw [if_neg h1, if_neg h1]
  simp

theorem npGet_isSome_of_nonneg {xs : List ℚ} {i : Int} (h0 : 0 ≤ i)
    (hl : i < (xs.length : Int)) : (npGet xs i).isSome := by
  simp only [npGet]
  rw [if_neg (not_lt.mpr h0), if_neg (not_lt.mpr h0)]
  have : i.toNat < xs.length := by omega
  simp [this]

theorem scoreRows_length {f : Fitted} {q : List (List ℚ)} {ps : List ℚ}
    (h : scoreRows f q = some ps) : ps.length = q.length := by
  induction q generalizing ps with
  | nil =>
    simp only [scoreRows, Option.some.injEq] at h
    simp [← h]
  | cons r rs ih =>
    simp only [scoreRows] at h
    cases h1 : rowScore f r with
    | none => rw [h1] at h; simp at h
    | some v =>
      cases h2 : scoreRows f rs with
      | none => rw [h1, h2] at h; simp at h
      | some vs =>
        rw [h1, h2] at h
        simp only [Option.some.injEq] at h
        subst h
        simp [ih h2]

theorem scoreRows_getElem? {f : Fitted} {q : List (List ℚ)} {ps : List ℚ}
    (h : scoreRows f q = some ps) (i : Nat) :
    ps[i]? = (q[i]?).bind (rowScore f) := by
  induction q generalizing ps i with
  | nil =>
    simp only [scoreRows, Option.some.injEq] at h
    simp [← h]
  | cons r rs ih =>
    simp only [scoreRows] at h
    cases h1 : rowScore f r with
    | none => rw [h1] at h; simp at h
    | some v =>
      cases h2 : scoreRows f rs with
      | none => rw [h1, h2] at h; simp at h
      | some vs =>
        rw [h1, h2] at h
        simp only [Option.some.injEq] at h
        subst h
        cases i with
        | zero => simp [h1]
        | succ j => simpa using ih h2 j

theorem scoreRows_of_forall {f : Fitted} {q : List (List ℚ)}
    (h : ∀ r ∈ q, (rowScore f r).isSome) : ∃ ps, scoreRows f q = some ps := by
  induction q with
  | nil => exact ⟨[], rfl⟩
  | cons r rs ih =>
    obtain ⟨vs, hvs⟩ := ih (fun z hz => h z (List.mem_cons_of_mem r hz))
    have hr := h r (List.mem_cons_self r rs)
    cases h1 : rowScore f r with
    | none => rw [h1] at hr; simp at hr
    | some v => exact ⟨v :: vs, by simp [scoreRows, h1, hvs]⟩

theorem scoreRows_none {f : Fitted} {q : List (List ℚ)} {r : List ℚ}
    (hr : r ∈ q) (h : rowScore f r = none) : scoreRows f q = none := by
  induction q with
  | nil => simp at hr
  | cons a rs ih =>
    rcases List.mem_cons.1 hr with rfl | hmem
    · simp [scoreRows, h]
    · cases h1 : rowScore f a with
      | none => simp [scoreRows, h1]
      | some v => simp [scoreRows, h1, ih hmem]

theorem fit_eq_ok {count k n : Nat} {resp : Nat → List (List ℚ)} {data : List ℚ}
    (hck : k < count)
    (hdata : allSome (((resp k).map (List.drop 1)).map meanOpt) = some data)
    (hn : n ≠ 0) :
    fit count resp k n =
      .ok ⟨cumsum (histogram_density data n).1, (histogram_density data n).2, k⟩ := by
  unfold fit
  rw [if_neg (not_le.mpr hck)]
  have hH : histogram (((resp k).map (List.drop 1)).map meanOpt) n
      = .ok (histogram_density data n) := by
    unfold histogram
    rw [if_neg hn, hdata]
  simp only []
  rw [hH]

theorem sorted_le_getLast {l : List ℚ} (hs : l.Sorted (· ≤ ·)) {v : ℚ}
    (hv : l.getLast? = some v) : ∀ p ∈ l, p ≤ v := by
  intro p hp
  obtain ⟨i, hi, rfl⟩ := List.mem_iff_getElem.mp hp
  rw [List.getLast?_eq_getElem?] at hv
  obtain ⟨hlast, hvv⟩ := List.getElem?_eq_some_iff.mp hv
  have hpw := List.pairwise_iff_getElem.mp hs
  rcases Nat.lt_or_ge i (l.length - 1) with hlt | hge
  · exact hvv ▸ hpw i (l.length - 1) hi hlast hlt
  · have : i = l.length - 1 := by omega
    subst this
    exact le_of_eq hvv

/-- Claim C1: for every collection size and neighborhood, `fit` raises
the too-small-collection configuration error exactly when
`collection_count ≤ estimator_neighborhood`, and when it raises, the
result does not depend on the nearest-neighbor collaborator at all (the
error precedes the batch query). -/
theorem C1_collection_too_small (collection_count : Nat) (resp : Nat → List (List ℚ))
    (estimator_neighborhood n_bins : Nat) :
    (fit collection_count resp estimator_neighborhood n_bins = .error .collectionTooSmall
      ↔ collection_count ≤ estimator_neighborhood) ∧
    (collection_count ≤ estimator_neighborhood →
      ∀ resp2 : Nat → List (List ℚ),
        fit collection_count resp estimator_neighborhood n_bins
          = fit collection_count resp2 estimator_neighborhood n_bins) := by
  constructor
  · constructor
    · intro h
      by_contra hc
      unfold fit at h
      rw [if_neg hc] at h
      simp only [] at h
      cases hh : histogram (((resp estimator_neighborhood).map (List.drop 1)).map meanOpt)
          n_bins with
      | error e =>
        rw [hh] at h
        simp only [Except.error.injEq] at h
        subst h
        exact histogram_ne_collectionTooSmall _ _ hh
      | ok pr =>
        obtain ⟨hist, edges⟩ := pr
        rw [hh] at h
        exact absurd h (by simp)
    · intro hc
      unfold fit
      rw [if_pos hc]
  · intro hc resp2
    unfold fit
    rw [if_pos hc, if_pos hc]

theorem C1_witness : fit 2 resp0 3 5 = fit 2 (fun _ => []) 3 5 :=
  (C1_collection_too_small 2 resp0 3 5).2 (by norm_num) (fun _ => [])

/-- Claim C2: the code does not clamp out-of-range bin indices.  At a
fitted estimator (reference means 1, 2, 4; two bins; edges 1, 5/2, 4) a
query row with mean at/above the highest edge makes the lookup an
out-of-bounds IndexError, and a row with mean below the lowest edge
returns the last cumulative value 2/3 (numpy index -1), not the first
bin's value 4/9 — contradicting the claimed clamp-to-nearest-bin
policy. -/
theorem C2_no_clamp :
    fit 3 resp0 2 2 = .ok ⟨[4/9, 2/3], [1, 5/2, 4], 2⟩ ∧
    (evaluate_query ⟨[4/9, 2/3], [1, 5/2, 4], 2⟩ [[4, 5]]).2 = .error .indexError ∧
    (evaluate_query ⟨[4/9, 2/3], [1, 5/2, 4], 2⟩ [[1/2, 1/2]]).2 = .ok [2/3] ∧
    (2/3 : ℚ) ≠ 4/9 := by decide

/-- Claim C3 fails as stated: a collaborator response obeying the
spec's nearest-neighbor contract for `k = 2` has rows of 2 columns, not
`k + 1 = 3`, and after dropping the self-distance column a row keeps 1
distance, not `k = 2`. -/
theorem C3_counterexample :
    NNResponseOk 3 2 (resp0 2) ∧
    ¬ (∀ row ∈ resp0 2, row.length = 2 + 1) ∧
    ¬ (∀ row ∈ resp0 2, (List.drop 1 row).length = 2) := by decide

/-- Claim C3 (amended): `fit` passes `estimator_neighborhood` as `k`
(its result depends on the collaborator only through the response at
that `k`); under the spec's nearest-neighbor contract the returned
matrix has `estimator_neighborhood` columns with the self-distance in
column 0, and after dropping column 0 each row has exactly
`estimator_neighborhood - 1` distances, so each reference vector's mean
is the arithmetic mean of `estimator_neighborhood - 1` neighbor
distances. -/
theorem C3_neighbor_columns (N estimator_neighborhood n_bins collection_count : Nat)
    (resp : Nat → List (List ℚ)) (hk : 2 ≤ estimator_neighborhood)
    (hc : NNResponseOk N estimator_neighborhood (resp estimator_neighborhood)) :
    (∀ resp2 : Nat → List (List ℚ),
      resp estimator_neighborhood = resp2 estimator_neighborhood →
      fit collection_count resp estimator_neighborhood n_bins
        = fit collection_count resp2 estimator_neighborhood n_bins) ∧
    ∀ row ∈ resp estimator_neighborhood,
      row.length = estimator_neighborhood ∧
      (List.drop 1 row).length = estimator_neighborhood - 1 ∧
      meanOpt (List.drop 1 row)
        = some ((List.drop 1 row).sum / ((estimator_neighborhood : ℚ) - 1)) := by
  constructor
  · intro resp2 he
    unfold fit
    rw [he]
  · intro row hrow
    obtain ⟨-, hall⟩ := hc
    obtain ⟨hlen, -, -⟩ := hall row hrow
    have hdlen : (List.drop 1 row).length = estimator_neighborhood - 1 := by
      rw [List.length_drop, hlen]
    refine ⟨hlen, hdlen, ?_⟩
    have hne : ¬ ((List.drop 1 row).isEmpty = true) := by
      rw [List.isEmpty_iff]
      intro hnil
      rw [hnil] at hdlen
      simp at hdlen
      omega
    unfold meanOpt
    rw [if_neg hne, hdlen]
    rw [Nat.cast_sub (le_trans (by norm_num) hk)]
    norm_num

theorem C3_witness :
    meanOpt (List.drop 1 [(0 : ℚ), 1]) = some ((List.drop 1 [(0 : ℚ), 1]).sum / ((2 : ℚ) - 1)) :=
  ((C3_neighbor_columns 3 2 5 3 resp0 (by norm_num) (by decide)).2 [0, 1] (by decide)).2.2

/-- Claim C4 fails as stated: with collection size 3 strictly above the
neighborhood 2 but `n_bins = 0`, `fit` raises numpy's bins-must-be-
positive error instead of succeeding. -/
theorem C4_counterexample :
    2 < 3 ∧ fit 3 resp0 2 0 = .error .binsNonPositive := ⟨by norm_num, by decide⟩

/-- Claim C4 (amended): for every collection size strictly above the
neighborhood, every positive `n_bins`, and every collaborator response
whose rows keep at least one distance after the self-distance column is
dropped (row length at least 2), `fit` succeeds and stores exactly
`n_bins` cumulative values and `n_bins + 1` bin edges. -/
theorem C4_fit_shape (collection_count estimator_neighborhood n_bins : Nat)
    (resp : Nat → List (List ℚ))
    (hck : estimator_neighborhood < collection_count) (hn : 1 ≤ n_bins)
    (hrows : ∀ row ∈ resp estimator_neighborhood, 2 ≤ row.length) :
    ∃ f : Fitted, fit collection_count resp estimator_neighborhood n_bins = .ok f ∧
      f.percentiles.length = n_bins ∧ f.bin_edges.length = n_bins + 1 := by
  have hmeans : ∀ o ∈ ((resp estimator_neighborhood).map (List.drop 1)).map meanOpt,
      o.isSome := by
    intro o ho
    obtain ⟨d, hd, rfl⟩ := List.mem_map.1 ho
    obtain ⟨row, hrow, rfl⟩ := List.mem_map.1 hd
    have h2 := hrows row hrow
    have hdlen : (List.drop 1 row).length = row.length - 1 := List.length_drop 1 row
    have hne : ¬ ((List.drop 1 row).isEmpty = true) := by
      rw [List.isEmpty_iff]
      intro hnil
      rw [hnil] at hdlen
      simp at hdlen
      omega
    unfold meanOpt
    rw [if_neg hne]
    rfl
  obtain ⟨data, hdata⟩ := allSome_of_forall hmeans
  refine ⟨⟨cumsum (histogram_density data n_bins).1, (histogram_density data n_bins).2,
    estimator_neighborhood⟩, fit_eq_ok hck hdata (by omega), ?_, ?_⟩
  · simp [cumsum_length, histogram_density_fst_length]
  · simp [histogram_density_snd_length]

theorem C4_witness :
    ∃ f : Fitted, fit 3 resp0 2 2 = .ok f ∧
      f.percentiles.length = 2 ∧ f.bin_edges.length = 3 :=
  C4_fit_shape 3 2 2 resp0 (by norm_num) (by norm_num) (by decide)

/-- Claim C5: for every successful fit, the stored cumulative
percentiles array is non-decreasing in bin order. -/
theorem C5_percentiles_monotone (collection_count estimator_neighborhood n_bins : Nat)
    (resp : Nat → List (List ℚ)) (f : Fitted)
    (hfit : fit collection_count resp estimator_neighborhood n_bins = .ok f)
    (i j : Nat) (hij : i ≤ j) (vi vj : ℚ)
    (hvi : f.percentiles[i]? = some vi) (hvj : f.percentiles[j]? = some vj) :
    vi ≤ vj := by
  have hs := fit_ok_sorted hfit
  rcases eq_or_lt_of_le hij with rfl | hlt
  · rw [hvi] at hvj
    simp only [Option.some.injEq] at hvj
    exact le_of_eq hvj
  · obtain ⟨hj, hvj2⟩ := List.getElem?_eq_some_iff.mp hvj
    obtain ⟨hi2, hvi2⟩ := List.getElem?_eq_some_iff.mp hvi
    have hpw := List.pairwise_iff_getElem.mp hs
    exact hvi2 ▸ hvj2 ▸ hpw i j hi2 hj hlt

theorem C5_witness : (4/9 : ℚ) ≤ 2/3 :=
  C5_percentiles_monotone 3 2 2 resp0 ⟨[4/9, 2/3], [1, 5/2, 4], 2⟩ (by decide)
    0 1 (by norm_num) (4/9) (2/3) (by decide) (by decide)

/-- Claim C6 fails as stated: at a fitted estimator (means 1, 2, 4; two
bins), the non-empty rectangular batch with the single short row `[10]`
(1 distance, fewer than the fitted neighborhood 2) does log the
warning, but `evaluate_query` then raises an out-of-bounds IndexError
instead of returning a result. -/
theorem C6_counterexample :
    fit 3 resp0 2 2 = .ok ⟨[4/9, 2/3], [1, 5/2, 4], 2⟩ ∧
    rectangular [[10]] = true ∧
    ([(10 : ℚ)] : List ℚ).length < 2 ∧
    (evaluate_query ⟨[4/9, 2/3], [1, 5/2, 4], 2⟩ [[10]]).2 = .error .indexError := by decide

/-- Claim C6 (amended): for every fitted estimator and every non-empty
rectangular query batch whose rows have fewer than
`estimator_neighborhood` distances, `evaluate_query` emits exactly one
warning for the whole call, stating the row's distance count and
`estimator_neighborhood`; and it returns a result (no exception)
provided every row's mean distance falls strictly below the highest
fitted bin edge. -/
theorem C6_reduced_neighborhood (collection_count estimator_neighborhood n_bins : Nat)
    (resp : Nat → List (List ℚ)) (f : Fitted) (r0 : List ℚ) (rs : List (List ℚ)) (emax : ℚ)
    (hfit : fit collection_count resp estimator_neighborhood n_bins = .ok f)
    (hrect : rectangular (r0 :: rs) = true)
    (hshort : r0.length < estimator_neighborhood)
    (hlast : f.bin_edges.getLast? = some emax)
    (hrows : ∀ row ∈ r0 :: rs, ∃ m : ℚ, meanOpt row = some m ∧ m < emax) :
    (evaluate_query f (r0 :: rs)).1 = [(r0.length, estimator_neighborhood)] ∧
    ∃ ps : List ℚ, (evaluate_query f (r0 :: rs)).2 = .ok ps := by
  obtain ⟨lo, hi, hlohi, hedges⟩ := fit_ok_edges hfit
  have hplen := fit_ok_percentiles_length hfit
  obtain ⟨-, hn1, hest, -⟩ := fit_ok_inv hfit
  rw [hedges, edges_getLast] at hlast
  simp only [Option.some.injEq] at hlast
  have helen : f.bin_edges.length = n_bins + 1 := by
    rw [hedges]
    simp
  have hmem : edgeAt lo hi n_bins n_bins ∈ f.bin_edges := by
    rw [hedges]
    exact List.mem_map.2 ⟨n_bins, List.mem_range.2 (Nat.lt_succ_self _), rfl⟩
  have hsome : ∀ r ∈ r0 :: rs, (rowScore f r).isSome := by
    intro r hr
    obtain ⟨m, hm, hmlt⟩ := hrows r hr
    have hdig : digitize m f.bin_edges < f.bin_edges.length :=
      digitize_lt_length hmem (hlast ▸ hmlt)
    unfold rowScore
    rw [hm]
    have hdo : digitizeOpt (some m) f.bin_edges = digitize m f.bin_edges := rfl
    rw [hdo]
    by_cases h0 : digitize m f.bin_edges = 0
    · rw [h0]
      have hneg : ((0 : Nat) : Int) - 1 = -1 := by norm_num
      rw [hneg, npGet_neg_one (by omega)]
      rw [List.getLast?_isSome]
      exact List.ne_nil_of_length_pos (by omega)
    · apply npGet_isSome_of_nonneg
      · omega
      · rw [hplen]
        omega
  obtain ⟨ps, hps⟩ := scoreRows_of_forall hsome
  have heval : evaluate_query f (r0 :: rs) = ([(r0.length, estimator_neighborhood)], .ok ps) := by
    unfold evaluate_query
    rw [if_pos hrect]
    simp only [hps, hest, if_pos hshort]
  rw [heval]
  exact ⟨rfl, ps, rfl⟩

theorem C6_witness :
    (evaluate_query ⟨[4/9, 2/3], [1, 5/2, 4], 2⟩ [[2]]).1 = [(1, 2)] ∧
    ∃ ps : List ℚ, (evaluate_query ⟨[4/9, 2/3], [1, 5/2, 4], 2⟩ [[2]]).2 = .ok ps :=
  C6_reduced_neighborhood 3 2 2 resp0 ⟨[4/9, 2/3], [1, 5/2, 4], 2⟩ [2] [] 4
    (by decide) (by decide) (by decide) (by decide)
    (fun row hrow => by
      rw [List.mem_singleton] at hrow
      subst hrow
      exact ⟨2, by decide, by norm_num⟩)

/-- Claim C7 fails as stated: `evaluate_query` on an empty query batch
does not return an empty sequence; `np.array([])` is one-dimensional,
so the `shape[1]` access raises an IndexError, shown here at a fitted
estimator. -/
theorem C7_counterexample :
    fit 3 resp0 2 2 = .ok ⟨[4/9, 2/3], [1, 5/2, 4], 2⟩ ∧
    (evaluate_query ⟨[4/9, 2/3], [1, 5/2, 4], 2⟩ ([] : List (List ℚ))).2
      = .error .emptyBatchShape := by decide

/-- Claim C7 (amended): for every fitted estimator, `evaluate_query`
applied to an empty query batch raises an error (the `shape[1]` access
on the 1-D empty array fails) rather than returning an empty
sequence. -/
theorem C7_empty_batch (f : Fitted) :
    evaluate_query f [] = ([], .error .emptyBatchShape) := rfl

/-- Claim C8: whenever `evaluate_query` returns, the returned sequence
has the same length as the input batch and its `i`-th score is computed
from the `i`-th input row. -/
theorem C8_length_order (f : Fitted) (q : List (List ℚ)) (ps : List ℚ)
    (h : (evaluate_query f q).2 = .ok ps) :
    ps.length = q.length ∧ ∀ i : Nat, ps[i]? = (q[i]?).bind (rowScore f) := by
  unfold evaluate_query at h
  by_cases hrect : rectangular q = true
  · rw [if_pos hrect] at h
    cases q with
    | nil => simp at h
    | cons r0 rs =>
      simp only [] at h
      cases hs : scoreRows f (r0 :: rs) with
      | none => rw [hs] at h; simp at h
      | some ps2 =>
        rw [hs] at h
        simp only [Except.ok.injEq] at h
        subst h
        exact ⟨scoreRows_length hs, fun i => scoreRows_getElem? hs i⟩
  · rw [if_neg hrect] at h
    simp at h

theorem C8_witness :
    ([(2 : ℚ)/3] : List ℚ).length = ([[(1 : ℚ)/2, 1/2]] : List (List ℚ)).length ∧
    ∀ i : Nat, ([(2 : ℚ)/3] : List ℚ)[i]? =
      (([[(1 : ℚ)/2, 1/2]] : List (List ℚ))[i]?).bind
        (rowScore ⟨[4/9, 2/3], [1, 5/2, 4], 2⟩) :=
  C8_length_order ⟨[4/9, 2/3], [1, 5/2, 4], 2⟩ [[1/2, 1/2]] [2/3] (by decide)

/-- Claim C9: for every fitted estimator, a query row whose mean
distance is at or above the highest fitted bin edge digitizes to bin
index `n_bins`, which is outside the cumulative array of length
`n_bins`, so `evaluate_query` fails with an out-of-bounds IndexError
instead of returning a score. -/
theorem C9_overflow_index (collection_count estimator_neighborhood n_bins : Nat)
    (resp : Nat → List (List ℚ)) (f : Fitted) (q : List (List ℚ)) (row : List ℚ) (m emax : ℚ)
    (hfit : fit collection_count resp estimator_neighborhood n_bins = .ok f)
    (hrow : row ∈ q) (hrect : rectangular q = true)
    (hm : meanOpt row = some m)
    (hlast : f.bin_edges.getLast? = some emax) (hge : emax ≤ m) :
    (digitize m f.bin_edges : Int) - 1 = (n_bins : Int) ∧
    f.percentiles.length = n_bins ∧
    (evaluate_query f q).2 = .error .indexError := by
  obtain ⟨lo, hi, hlohi, hedges⟩ := fit_ok_edges hfit
  have hplen := fit_ok_percentiles_length hfit
  rw [hedges, edges_getLast] at hlast
  simp only [Option.some.injEq] at hlast
  have hall : ∀ e ∈ f.bin_edges, e ≤ m := by
    intro e he
    rw [hedges] at he
    obtain ⟨i, hi2, rfl⟩ := List.mem_map.1 he
    have hile : i ≤ n_bins := Nat.lt_succ_iff.mp (List.mem_range.mp hi2)
    calc edgeAt lo hi n_bins i ≤ edgeAt lo hi n_bins n_bins := edgeAt_le_edgeAt hlohi hile
      _ = emax := hlast
      _ ≤ m := hge
  have hdig : digitize m f.bin_edges = n_bins + 1 := by
    rw [digitize_eq_length_of_le hall, hedges]
    simp
  have hidx : (digitize m f.bin_edges : Int) - 1 = (n_bins : Int) := by
    rw [hdig]
    push_cast
    ring
  refine ⟨hidx, hplen, ?_⟩
  have hnone : rowScore f row = none := by
    unfold rowScore
    rw [hm]
    have hdo : digitizeOpt (some m) f.bin_edges = digitize m f.bin_edges := rfl
    rw [hdo, hidx, ← hplen]
    exact npGet_length_eq_none _
  have hsr := scoreRows_none hrow hnone
  cases q with
  | nil => simp at hrow
  | cons r0 rs =>
    unfold evaluate_query
    rw [if_pos hrect]
    simp only [hsr]

theorem C9_witness :
    (digitize (9/2 : ℚ) [1, 5/2, 4] : Int) - 1 = (2 : Int) ∧
    ([(4 : ℚ)/9, 2/3] : List ℚ).length = 2 ∧
    (evaluate_query ⟨[4/9, 2/3], [1, 5/2, 4], 2⟩ [[4, 5]]).2 = .error .indexError :=
  C9_overflow_index 3 2 2 resp0 ⟨[4/9, 2/3], [1, 5/2, 4], 2⟩ [[4, 5]] [4, 5] (9/2) 4
    (by decide) (by decide) (by decide) (by decide) (by decide) (by norm_num)

/-- Claim C10: for every fitted estimator, a query row whose mean
distance is strictly below the lowest fitted bin edge digitizes to bin
index `-1`, which under numpy's negative-index semantics silently
returns the last — and, by monotonicity, largest — cumulative value:
the sparsest-possible query is scored as maximally dense. -/
theorem C10_negative_index (collection_count estimator_neighborhood n_bins : Nat)
    (resp : Nat → List (List ℚ)) (f : Fitted) (row : List ℚ) (m e0 : ℚ)
    (hfit : fit collection_count resp estimator_neighborhood n_bins = .ok f)
    (hm : meanOpt row = some m)
    (hhead : f.bin_edges.head? = some e0) (hlt : m < e0) :
    ∃ v : ℚ, f.percentiles.getLast? = some v ∧ rowScore f row = some v ∧
      (∀ p ∈ f.percentiles, p ≤ v) ∧
      (evaluate_query f [row]).2 = .ok [v] := by
  obtain ⟨lo, hi, hlohi, hedges⟩ := fit_ok_edges hfit
  have hplen := fit_ok_percentiles_length hfit
  obtain ⟨-, hn1, -, -⟩ := fit_ok_inv hfit
  rw [hedges, edges_head] at hhead
  simp only [Option.some.injEq] at hhead
  have hall : ∀ e ∈ f.bin_edges, m < e := by
    intro e he
    rw [hedges] at he
    obtain ⟨i, hi2, rfl⟩ := List.mem_map.1 he
    have h0i : edgeAt lo hi n_bins 0 ≤ edgeAt lo hi n_bins i :=
      edgeAt_le_edgeAt hlohi (Nat.zero_le i)
    rw [edgeAt_zero] at h0i
    calc m < e0 := hlt
      _ = lo := hhead.symm
      _ ≤ edgeAt lo hi n_bins i := h0i
  have hdig : digitize m f.bin_edges = 0 := digitize_eq_zero_of_lt hall
  have h1 : 1 ≤ f.percentiles.length := by omega
  obtain ⟨v, hv⟩ : ∃ v, f.percentiles.getLast? = some v := by
    have hs : f.percentiles.getLast?.isSome := by
      rw [List.getLast?_isSome]
      exact List.ne_nil_of_length_pos (by omega)
    exact Option.isSome_iff_exists.mp hs
  have hscore : rowScore f row = some v := by
    unfold rowScore
    rw [hm]
    have hdo : digitizeOpt (some m) f.bin_edges = digitize m f.bin_edges := rfl
    rw [hdo, hdig]
    have hneg : ((0 : Nat) : Int) - 1 = -1 := by norm_num
    rw [hneg, npGet_neg_one h1]
    exact hv
  refine ⟨v, hv, hscore, sorted_le_getLast (fit_ok_sorted hfit) hv, ?_⟩
  have hsr : scoreRows f [row] = some [v] := by
    simp [scoreRows, hscore]
  have hrect : rectangular [row] = true := by
    simp [rectangular]
  unfold evaluate_query
  rw [if_pos hrect]
  simp only [hsr]

theorem C10_witness :
    ∃ v : ℚ, ([(4 : ℚ)/9, 2/3] : List ℚ).getLast? = some v ∧
      rowScore ⟨[4/9, 2/3], [1, 5/2, 4], 2⟩ [1/2, 1/2] = some v ∧
      (∀ p ∈ ([(4 : ℚ)/9, 2/3] : List ℚ), p ≤ v) ∧
      (evaluate_query ⟨[4/9, 2/3], [1, 5/2, 4], 2⟩ [[1/2, 1/2]]).2 = .ok [v] :=
  C10_negative_index 3 2 2 resp0 ⟨[4/9, 2/3], [1, 5/2, 4], 2⟩ [1/2, 1/2] (1/2) 1
    (by decide) (by decide) (by decide) (by norm_num)
